import Mathlib

/-!
# Verification of the query-compiler core of a document-collection controller

This file gives a shallow embedding, in Lean, of the query-compilation core of
the controller library:

* `src/lib/utils/query.ts` — `normalize`, `findNextPair`, `transformRegExpSearch`;
* `src/lib/controller/default.ts` — `computePreQuery`, `computePostQuery`,
  `computeSort`, `computeOption`, `computePipeline`.

Modelling conventions:

* JavaScript values reachable by this code are modelled by the mutual inductive
  `JSValue` / `JSArr` / `JSObj` (null, booleans, numbers, strings, `Date`
  objects, arrays, plain objects).  JavaScript numbers are modelled as integers:
  every numeric value the embedded code produces comes from parsing a decimal
  integer literal, and non-integral numeric strings are treated as non-numeric
  (they then take the string fall-through path).
* Exceptions are modelled with `Except NormError`; the extra constructor
  `NormError.fuelExhausted` is the out-of-fuel marker of the bounded recursion
  used for `normalize` and the JSON parser.  The recursion depth of those
  functions is bounded by the input size, so the marker is unreachable for the
  executions considered here; theorems never rely on it.
* Non-termination of the filter-scanning loops (which the JavaScript `for`
  loops exhibit when `findNextPair` returns `endIndex = 0` on a non-sentinel
  pair) is modelled by the `Outcome.diverges` constructor.
* Helper predicates of the external `@kakang/validator` package (`isString`,
  `isObject`, `isArray`, `isNumber`, `isNull`, `isJSON`, `isExist`,
  `Date.isISO8601Date`) are not part of this repository; they are modelled by
  their documented contracts: `isObject` is the `typeof x === 'object'` test,
  `isJSON` recognises plain objects, `isExist` rejects `null` and the empty
  string, and `isISO8601Date` is an ISO-8601 date/time matcher.
* The external aggregate-builder is modelled, per its interface, as a list of
  opaque `Stage` values with `match`/`sort`/`limit`/`skip` constructors,
  appended and concatenated in order.
-/

namespace MongoController

mutual
/-- JavaScript-like values flowing through the query compiler. -/
inductive JSValue where
  | null
  | bool (b : Bool)
  | num (n : Int)
  | str (s : String)
  | date (iso : String)
  | arr (xs : JSArr)
  | obj (fs : JSObj)
deriving DecidableEq

/-- An ordered JavaScript array of `JSValue`s. -/
inductive JSArr where
  | nil
  | cons (v : JSValue) (tl : JSArr)
deriving DecidableEq

/-- An ordered JavaScript object: insertion-ordered string-keyed fields. -/
inductive JSObj where
  | nil
  | cons (k : String) (v : JSValue) (tl : JSObj)
deriving DecidableEq
end

/-- Singleton-field object, the shape `\x7b [key]: value \x7d` used by the compiler. -/
def JSValue.field (k : String) (v : JSValue) : JSValue :=
  .obj (.cons k v .nil)

/-- Convert a Lean list of values to a `JSArr`. -/
def listToJSArr : List JSValue → JSArr
  | [] => .nil
  | v :: tl => .cons v (listToJSArr tl)

/-! ## Character and string helpers

JavaScript string primitives used by the source (`includes`, `startsWith`,
`endsWith`, `toLowerCase`, `trim`, `split`, first-occurrence `replace`) are
modelled on the character lists underlying Lean strings. -/

/-- Does the first list occur at the head of the second? -/
def leadMatch : List Char → List Char → Bool
  | [], _ => true
  | _ :: _, [] => false
  | a :: as, b :: bs => a = b && leadMatch as bs

/-- Does `sub` occur as a contiguous run inside `l`? -/
def containsSub (sub : List Char) (l : List Char) : Bool :=
  match l with
  | [] => sub.isEmpty
  | _ :: tl => leadMatch sub l || containsSub sub tl

/-- JavaScript `s.includes(sub)`. -/
def jsIncludes (s sub : String) : Bool := containsSub sub.data s.data

/-- JavaScript `s.startsWith(pre)`. -/
def jsStartsWith (s pre : String) : Bool := leadMatch pre.data s.data

/-- JavaScript `s.endsWith(suf)`. -/
def jsEndsWith (s suf : String) : Bool := leadMatch suf.data.reverse s.data.reverse

/-- ASCII lower-casing of one character, as JavaScript `toLowerCase` acts on
the ASCII range (the only range the compiler compares against). -/
def jsLowerChar (c : Char) : Char :=
  if 'A' ≤ c ∧ c ≤ 'Z' then Char.ofNat (c.toNat + 32) else c

/-- JavaScript `s.toLowerCase()` (ASCII). -/
def jsToLower (s : String) : String := String.mk (s.data.map jsLowerChar)

/-- JavaScript whitespace recognised by `trim` / `Number`. -/
def isWSChar (c : Char) : Bool := c = ' ' || c = '\t' || c = '\n' || c = '\r'

/-- Strip leading and trailing whitespace from a character list. -/
def trimChars (l : List Char) : List Char :=
  ((l.dropWhile isWSChar).reverse.dropWhile isWSChar).reverse

/-- JavaScript `s.trim()`. -/
def jsTrim (s : String) : String := String.mk (trimChars s.data)

/-- Split a character list on `,`, JavaScript `split(',')` semantics
(the empty list yields one empty piece). -/
def splitOnComma (l : List Char) : List (List Char) :=
  match l with
  | [] => [[]]
  | c :: tl =>
    if c = ',' then [] :: splitOnComma tl
    else
      match splitOnComma tl with
      | [] => [[c]]
      | p :: ps => (c :: p) :: ps

/-- Remove the first occurrence of `pat` from `l` (JavaScript one-argument
string `replace` with an empty replacement). -/
def removeFirstSub (pat : List Char) : List Char → List Char
  | [] => []
  | c :: tl =>
    if leadMatch pat (c :: tl) then (c :: tl).drop pat.length
    else c :: removeFirstSub pat tl

/-- JavaScript `s.replace(pat, '')`: first occurrence only. -/
def jsReplaceFirst (s pat : String) : String := String.mk (removeFirstSub pat.data s.data)

/-! ## Decimal integers: JavaScript `Number(...)` and `String(...)` -/

/-- The decimal digit character for `n % 10`. -/
def digitChar (n : Nat) : Char :=
  match n with
  | 0 => '0' | 1 => '1' | 2 => '2' | 3 => '3' | 4 => '4'
  | 5 => '5' | 6 => '6' | 7 => '7' | 8 => '8' | _ => '9'

/-- Numeric value of a decimal digit character. -/
def digitVal (c : Char) : Nat := c.toNat - 48

/-- Decimal digits of `n`, most significant first (`fuel` bounds recursion
depth; `natToString` supplies enough). -/
def natPrint : Nat → Nat → List Char
  | 0, _ => []
  | fuel + 1, n => if n < 10 then [digitChar n] else natPrint fuel (n / 10) ++ [digitChar (n % 10)]

/-- Decimal rendering of a natural number. -/
def natToString (n : Nat) : String := String.mk (natPrint (n + 1) n)

/-- JavaScript `String(n)` for an integer. -/
def intToString : Int → String
  | .ofNat n => natToString n
  | .negSucc m => "-" ++ natToString (m + 1)

/-- Fold a digit run into a number; `none` on a non-digit. -/
def parseDigitsAux : List Char → Nat → Option Nat
  | [], acc => some acc
  | c :: tl, acc => if c.isDigit then parseDigitsAux tl (acc * 10 + digitVal c) else none

/-- Parse a non-empty all-digit run. -/
def parseDigits : List Char → Option Nat
  | [] => none
  | l => parseDigitsAux l 0

/-- JavaScript `Number(s)` restricted to the decimal-integer forms the
embedded code relies on: whitespace is trimmed, the empty string is `0`, an
optional sign precedes a digit run; anything else is `NaN` (`none`).
Fractional, exponent, hexadecimal and `Infinity` forms are treated as
non-numeric. -/
def jsToNumber (s : String) : Option Int :=
  match trimChars s.data with
  | [] => some 0
  | c :: tl =>
    if c = '-' then (parseDigits tl).map (fun n => -(n : Int))
    else if c = '+' then (parseDigits tl).map (fun n => (n : Int))
    else (parseDigits (c :: tl)).map (fun n => (n : Int))

/-! ## ISO-8601 matcher (`Date.isISO8601Date` of the validator package) -/

/-- Trailing timezone designator: empty, `Z`, or `±HH:MM`. -/
def isoZone : List Char → Bool
  | [] => true
  | ['Z'] => true
  | [s, h1, h2, ':', m1, m2] =>
    (s = '+' || s = '-') && h1.isDigit && h2.isDigit && m1.isDigit && m2.isDigit
  | _ => false

/-- Optional fractional seconds then timezone. -/
def isoFrac : List Char → Bool
  | '.' :: d1 :: d2 :: d3 :: rest => d1.isDigit && d2.isDigit && d3.isDigit && isoZone rest
  | l => isoZone l

/-- Optional `:SS` seconds then fraction/timezone. -/
def isoSec : List Char → Bool
  | ':' :: s1 :: s2 :: rest => s1.isDigit && s2.isDigit && isoFrac rest
  | l => isoZone l

/-- Optional `THH:MM...` time part. -/
def isoTime : List Char → Bool
  | [] => true
  | 'T' :: h1 :: h2 :: ':' :: n1 :: n2 :: rest =>
    h1.isDigit && h2.isDigit && n1.isDigit && n2.isDigit && isoSec rest
  | _ => false

/-- The ISO-8601 `YYYY-MM-DD[THH:MM[:SS[.fff]][Z|±HH:MM]]` shape. -/
def isoDate : List Char → Bool
  | y1 :: y2 :: y3 :: y4 :: '-' :: m1 :: m2 :: '-' :: d1 :: d2 :: rest =>
    y1.isDigit && y2.isDigit && y3.isDigit && y4.isDigit &&
    m1.isDigit && m2.isDigit && d1.isDigit && d2.isDigit && isoTime rest
  | _ => false

/-- `Date.isISO8601Date` of the validator package: full-string ISO-8601 match. -/
def isISO8601 (s : String) : Bool := isoDate s.data

/-! ## Validator predicates (modelled contracts of the external package) -/

/-- JavaScript `typeof x === 'object'` (`isObject` of the validator):
true for `null`, arrays, `Date`s and plain objects. -/
def typeofObjectV : JSValue → Bool
  | .null | .arr _ | .obj _ | .date _ => true
  | _ => false

/-- `isNull` of the validator. -/
def isNullV : JSValue → Bool
  | .null => true
  | _ => false

/-- `isString` of the validator. -/
def isStringV : JSValue → Bool
  | .str _ => true
  | _ => false

/-- `isNumber` of the validator. -/
def isNumberV : JSValue → Bool
  | .num _ => true
  | _ => false

/-- `isArray` of the validator. -/
def isArrayV : JSValue → Bool
  | .arr _ => true
  | _ => false

/-- `isJSON` of the validator: recognises plain objects. -/
def isJSONV : JSValue → Bool
  | .obj _ => true
  | _ => false

/-- `isExist` of the validator: rejects `null` and the empty string
(`undefined` is the `Option.none` of the embedding). -/
def isExistV (v : JSValue) : Bool := !(v = .null) && !(v = .str "")

/-! ## `JSON.stringify` and `String(...)` -/

/-- Escape one character for a JSON string literal (quote and backslash; the
compiler never feeds control characters through this path). -/
def escapeChar (c : Char) : List Char :=
  if c = '"' then ['\\', '"'] else if c = '\\' then ['\\', '\\'] else [c]

/-- JSON-escape a string body. -/
def escapeJSON (s : String) : String :=
  String.mk (s.data.foldr (fun c acc => escapeChar c ++ acc) [])

mutual
/-- `JSON.stringify`.  A `Date` serialises as a quoted ISO string (the
embedding carries the source ISO text rather than a timestamp). -/
def jsonStringify : JSValue → String
  | .null => "null"
  | .bool true => "true"
  | .bool false => "false"
  | .num n => intToString n
  | .str s => "\"" ++ escapeJSON s ++ "\""
  | .date iso => "\"" ++ iso ++ "\""
  | .arr xs => "[" ++ jsonStringifyArr xs ++ "]"
  | .obj fs => "\x7b" ++ jsonStringifyObj fs ++ "\x7d"

/-- Comma-joined array elements. -/
def jsonStringifyArr : JSArr → String
  | .nil => ""
  | .cons v .nil => jsonStringify v
  | .cons v tl => jsonStringify v ++ "," ++ jsonStringifyArr tl

/-- Comma-joined `"key":value` fields. -/
def jsonStringifyObj : JSObj → String
  | .nil => ""
  | .cons k v .nil => "\"" ++ escapeJSON k ++ "\":" ++ jsonStringify v
  | .cons k v tl => "\"" ++ escapeJSON k ++ "\":" ++ jsonStringify v ++ "," ++ jsonStringifyObj tl
end

mutual
/-- JavaScript `String(x)`; arrays join element strings with commas, plain
objects render as `[object Object]`, a `Date` renders as its carried ISO text. -/
def jsStringOf : JSValue → String
  | .null => "null"
  | .bool true => "true"
  | .bool false => "false"
  | .num n => intToString n
  | .str s => s
  | .date iso => iso
  | .arr xs => jsStringOfArr xs
  | .obj _ => "[object Object]"

/-- JavaScript `Array.prototype.toString`: comma join. -/
def jsStringOfArr : JSArr → String
  | .nil => ""
  | .cons v .nil => jsStringOf v
  | .cons v tl => jsStringOf v ++ "," ++ jsStringOfArr tl
end

/-- The textual form computed at the top of `normalize`
(`query.ts:28`): `JSON.stringify` for non-null objects, else `String(...)`. -/
def textualForm (v : JSValue) : String :=
  if typeofObjectV v && !(isNullV v) then jsonStringify v else jsStringOf v

/-! ## `JSON.parse` (bounded recursion) -/

/-- Drop leading JSON whitespace. -/
def skipWS (l : List Char) : List Char := l.dropWhile isWSChar

/-- Parse the body of a JSON string literal after its opening quote; returns
the decoded content and the remainder after the closing quote.  The common
escapes are decoded; `\uXXXX` is not modelled and fails the parse. -/
def parseStrBody : Nat → List Char → Option (List Char × List Char)
  | 0, _ => none
  | fuel + 1, l =>
    match l with
    | [] => none
    | '"' :: rest => some ([], rest)
    | '\\' :: e :: rest =>
      let dec : Option Char :=
        if e = '"' then some '"'
        else if e = '\\' then some '\\'
        else if e = '/' then some '/'
        else if e = 'n' then some '\n'
        else if e = 't' then some '\t'
        else if e = 'r' then some '\r'
        else if e = 'b' then some (Char.ofNat 8)
        else if e = 'f' then some (Char.ofNat 12)
        else none
      match dec with
      | none => none
      | some c => (parseStrBody fuel rest).map (fun p => (c :: p.1, p.2))
    | c :: rest => (parseStrBody fuel rest).map (fun p => (c :: p.1, p.2))

/-- Parse a JSON number at the head of the list (decimal integers, optional
minus sign; fractional and exponent forms are not modelled and fail). -/
def parseJSONNum (l : List Char) : Option (Int × List Char) :=
  match l with
  | '-' :: rest =>
    let ds := rest.takeWhile Char.isDigit
    (parseDigits ds).map (fun n => (-(n : Int), rest.drop ds.length))
  | _ =>
    let ds := l.takeWhile Char.isDigit
    (parseDigits ds).map (fun n => ((n : Int), l.drop ds.length))

mutual
/-- Parse one JSON value; returns the value and the unconsumed remainder. -/
def parseValue : Nat → List Char → Option (JSValue × List Char)
  | 0, _ => none
  | fuel + 1, l =>
    match skipWS l with
    | [] => none
    | c :: rest =>
      if c = '\x7b' then
        match skipWS rest with
        | '\x7d' :: r2 => some (.obj .nil, r2)
        | _ => (parseFields fuel rest).map (fun p => (.obj p.1, p.2))
      else if c = '[' then
        match skipWS rest with
        | ']' :: r2 => some (.arr .nil, r2)
        | _ => (parseItems fuel rest).map (fun p => (.arr p.1, p.2))
      else if c = '"' then
        (parseStrBody (rest.length + 1) rest).map (fun p => (.str (String.mk p.1), p.2))
      else if c = 't' then
        if leadMatch ['r', 'u', 'e'] rest then some (.bool true, rest.drop 3) else none
      else if c = 'f' then
        if leadMatch ['a', 'l', 's', 'e'] rest then some (.bool false, rest.drop 4) else none
      else if c = 'n' then
        if leadMatch ['u', 'l', 'l'] rest then some (.null, rest.drop 3) else none
      else
        (parseJSONNum (c :: rest)).map (fun p => (.num p.1, p.2))

/-- Parse the non-empty field list of a JSON object, up to and including the
closing brace. -/
def parseFields : Nat → List Char → Option (JSObj × List Char)
  | 0, _ => none
  | fuel + 1, l =>
    match skipWS l with
    | '"' :: rest =>
      match parseStrBody (rest.length + 1) rest with
      | none => none
      | some (k, r1) =>
        match skipWS r1 with
        | ':' :: r2 =>
          match parseValue fuel r2 with
          | none => none
          | some (v, r3) =>
            match skipWS r3 with
            | ',' :: r4 => (parseFields fuel r4).map (fun p => (.cons (String.mk k) v p.1, p.2))
            | '\x7d' :: r4 => some (.cons (String.mk k) v .nil, r4)
            | _ => none
        | _ => none
    | _ => none

/-- Parse the non-empty item list of a JSON array, up to and including the
closing bracket. -/
def parseItems : Nat → List Char → Option (JSArr × List Char)
  | 0, _ => none
  | fuel + 1, l =>
    match parseValue fuel l with
    | none => none
    | some (v, r1) =>
      match skipWS r1 with
      | ',' :: r2 => (parseItems fuel r2).map (fun p => (.cons v p.1, p.2))
      | ']' :: r2 => some (.cons v .nil, r2)
      | _ => none
end

/-- `JSON.parse`: parse one value and require full consumption. -/
def jsonParse (s : String) : Option JSValue :=
  match parseValue (s.length + 1) s.data with
  | some (v, rest) => if (skipWS rest).isEmpty then some v else none
  | none => none

/-! ## `normalize` (`query.ts:26-70`) -/

/-- Errors raised by normalization: `invalidOperator` is the
`invalid operator found` throw of the security guard, `malformedJSON` a
`JSON.parse` syntax error.  `fuelExhausted` is the out-of-fuel marker of the
bounded embedding; the recursion depth is bounded by the input size, so it is
unreachable for the executions considered here. -/
inductive NormError where
  | invalidOperator
  | malformedJSON
  | fuelExhausted
deriving DecidableEq

deriving instance DecidableEq for Except

mutual
/-- A size measure on values used only to choose a sufficient fuel bound. -/
def jsSize : JSValue → Nat
  | .str s => s.length + 1
  | .arr xs => jsSizeArr xs + 1
  | .obj fs => jsSizeObj fs + 1
  | _ => 1

/-- Sum of element sizes. -/
def jsSizeArr : JSArr → Nat
  | .nil => 0
  | .cons v tl => jsSize v + jsSizeArr tl + 1

/-- Sum of field-value sizes. -/
def jsSizeObj : JSObj → Nat
  | .nil => 0
  | .cons _ v tl => jsSize v + jsSizeObj tl + 1
end

mutual
/-- `normalize` (`query.ts:26-70`), with a fuel bound on the recursion.

The structure mirrors the source exactly:
1. compute the textual form and fail on `$function` / `$accumulator`;
2. a string wrapped in braces is `JSON.parse`d and normalization recurses;
3. the remaining branches are in `normalizeRest`. -/
def normalizeF : Nat → JSValue → Except NormError JSValue
  | 0, _ => .error .fuelExhausted
  | fuel + 1, v =>
    let tmp := textualForm v
    if jsIncludes tmp "$function" || jsIncludes tmp "$accumulator" then
      .error .invalidOperator
    else
      match v with
      | .str s =>
        if jsStartsWith s "\x7b" && jsEndsWith s "\x7d" then
          match jsonParse s with
          | none => .error .malformedJSON
          | some w => normalizeF fuel w
        else normalizeRest fuel v tmp
      | _ => normalizeRest fuel v tmp

/-- Branches 2-7 of `normalize`: boolean literals, numeric parse, ISO-8601
date, array map, object map (branch 6 fires exactly when the value is not a
number, not a string, not an array and `isJSON` holds, i.e. for plain
objects), else return the raw value. -/
def normalizeRest : Nat → JSValue → String → Except NormError JSValue
  | 0, _, _ => .error .fuelExhausted
  | fuel + 1, v, tmp =>
    if jsToLower tmp = "true" then .ok (.bool true)
    else if jsToLower tmp = "false" then .ok (.bool false)
    else
      match jsToNumber tmp with
      | some n => .ok (.num n)
      | none =>
        if isISO8601 tmp then .ok (.date tmp)
        else
          match v with
          | .arr xs => (normalizeArr fuel xs).map JSValue.arr
          | .obj fs => (normalizeObj fuel fs).map JSValue.obj
          | _ => .ok v

/-- `text.map(normalize)` over array elements (first error aborts). -/
def normalizeArr : Nat → JSArr → Except NormError JSArr
  | 0, _ => .error .fuelExhausted
  | fuel + 1, xs =>
    match xs with
    | .nil => .ok .nil
    | .cons v tl =>
      match normalizeF fuel v with
      | .error e => .error e
      | .ok nv => (normalizeArr fuel tl).map (JSArr.cons nv)

/-- The `Object.entries(o).forEach` loop of branch 6: `dateString` and
`$regex` values are coerced with `String(...)`, other values are normalized
recursively; the first error aborts. -/
def normalizeObj : Nat → JSObj → Except NormError JSObj
  | 0, _ => .error .fuelExhausted
  | fuel + 1, fs =>
    match fs with
    | .nil => .ok .nil
    | .cons k v tl =>
      if k = "dateString" ∨ k = "$regex" then
        (normalizeObj fuel tl).map (JSObj.cons k (.str (jsStringOf v)))
      else
        match normalizeF fuel v with
        | .error e => .error e
        | .ok nv => (normalizeObj fuel tl).map (JSObj.cons k nv)
end

/-- Fuel bound for `normalize`: generous multiple of the value size (each
recursion layer of `normalizeF`/`normalizeRest`/`normalizeArr`/`normalizeObj`
consumes one unit, and `JSON.parse` results are smaller than the parsed
text). -/
def normalizeFuel (v : JSValue) : Nat := 4 * jsSize v + 4 * jsSize v * jsSize v + 3

/-- `normalize` (`query.ts:26`). -/
def normalize (v : JSValue) : Except NormError JSValue :=
  normalizeF (normalizeFuel v + 1) v

/-! ## `findNextPair` (`query.ts:77-106`) -/

/-- The result record of `findNextPair`. -/
structure PairResult where
  startIndex : Nat
  endIndex : Nat
  key : String
  value : String
deriving DecidableEq

/-- `kKeyAllowedCharacters` (`query.ts:74`). -/
def kKeyAllowedCharacters : String :=
  "abcdefghijklmnopqrstuvwxyzABCDEFGHIJKLMNOPQRSTUVWXYZ0123456789.$"

/-- Membership in the allowed key character class. -/
def keyAllowed (c : Char) : Bool := kKeyAllowedCharacters.data.contains c

/-- One step of the bracket-depth counter: `\x7b` and `[` increment, `\x7d`
and `]` decrement (`kStart` / `kEnd`, `query.ts:72-73`). -/
def bracketStep (nested : Int) (c : Char) : Int :=
  let n1 := if c = '\x7b' ∨ c = '[' then nested + 1 else nested
  if c = '\x7d' ∨ c = ']' then n1 - 1 else n1

/-- The scanning loop of `findNextPair`: `chars` is the unread remainder,
`pos` its absolute index in the text.  In the key phase, allowed characters
extend the key and the first `:` switches phase; in the value phase, a comma
at bracket depth 0 terminates the pair with `endIndex = pos + 1`, every other
character is appended to the value. -/
def findNextPairGo (chars : List Char) (pos : Nat) (foundKey : Bool) (nested : Int)
    (key value : List Char) (si : Nat) : PairResult :=
  match chars with
  | [] => ⟨si, 0, String.mk key, String.mk value⟩
  | c :: rest =>
    if foundKey = false then
      if keyAllowed c then findNextPairGo rest (pos + 1) false nested (key ++ [c]) value si
      else if c = ':' then findNextPairGo rest (pos + 1) true nested key value si
      else findNextPairGo rest (pos + 1) false nested key value si
    else
      let nested2 := bracketStep nested c
      if nested2 = 0 ∧ c = ',' then ⟨si, pos + 1, String.mk key, String.mk value⟩
      else findNextPairGo rest (pos + 1) true nested2 key (value ++ [c]) si

/-- `findNextPair` (`query.ts:77`). -/
def findNextPair (text : String) (startIndex : Nat) : PairResult :=
  findNextPairGo (text.data.drop startIndex) startIndex false 0 [] [] startIndex

/-- `transformRegExpSearch` (`query.ts:108-114`). -/
def transformRegExpSearch (v : JSValue) : JSValue :=
  match v with
  | .str s =>
    if !(jsStartsWith s "\x7b") && !(jsEndsWith s "\x7d") then
      .obj (.cons "$regex" (.str s) (.cons "$options" (.str "i") .nil))
    else v
  | _ => v

/-! ## The controller's pipeline compiler (`default.ts:273-389`)

The external aggregate-builder is modelled, per its `append`/`concat`
contract, as a `List Stage`; `builder.match/sort/limit/skip` append the
corresponding stage.  A controller's read-only configuration
(`autoRegExpSearch`, `searchFields`, `postMatchKeywords`) is a `Config`.
Optional JavaScript parameters are `Option`s (`none` is `undefined`; a
non-string `filter` argument behaves identically to an absent one in every
embedded function, and is likewise modelled by `none`). -/

/-- One opaque pipeline stage. -/
inductive Stage where
  | matchSt (cond : JSValue)
  | sortSt (fields : List (String × Int))
  | limitSt (n : Int)
  | skipSt (n : Int)
deriving DecidableEq

/-- Read-only controller configuration. -/
structure Config where
  autoRegExpSearch : Bool
  searchFields : List String
  postMatchKeywords : List String

/-- Result of a controller computation: a JavaScript call either returns,
throws, or never terminates. -/
inductive Outcome (α : Type) where
  | diverges
  | throws (e : NormError)
  | ok (a : α)
deriving DecidableEq

/-- `shouldAdd` of the `computePreQuery` loop (`default.ts:292-296`): keep a
pair unless its key contains some post-match keyword. -/
def preKeep (kws : List String) (key : String) : Bool :=
  !(kws.any (fun kw => jsIncludes key kw))

/-- `shouldAdd` of the `computePostQuery` loop (`default.ts:320-324`): keep a
pair exactly when its key contains some post-match keyword. -/
def postKeep (kws : List String) (key : String) : Bool :=
  kws.any (fun kw => jsIncludes key kw)

/-- `if (!filter.endsWith(',')) filter += ','` (`default.ts:288`, `316`). -/
def withTrailingComma (f : String) : String :=
  if jsEndsWith f "," then f else f ++ ","

/-- The pair-scanning `for` loop shared by `computePreQuery`
(`default.ts:289-299`) and `computePostQuery` (`default.ts:317-327`): from
index `i`, extract the next pair, stop on the empty-key/empty-value sentinel,
keep the pair according to `keep` (normalizing its value, whose error aborts
the call), and continue from `endIndex`.  When `findNextPair` finds no
terminating comma it returns `endIndex = 0` and the JavaScript loop rescans
from index 0 forever; the fuel, one unit per iteration, then runs out and the
embedding reports `diverges` (the fuel exceeds the iteration count of every
terminating run, as `endIndex` strictly increases across iterations). -/
def queryLoopF (keep : String → Bool) (text : String) : Nat → Nat → Outcome (List JSValue)
  | 0, _ => .diverges
  | fuel + 1, i =>
    if text.length < i then .ok []
    else if (findNextPair text i).key = "" ∧ (findNextPair text i).value = "" then .ok []
    else if keep (findNextPair text i).key then
      match normalize (.str (findNextPair text i).value) with
      | .error e => .throws e
      | .ok nv =>
        match queryLoopF keep text fuel (findNextPair text i).endIndex with
        | .ok rest => .ok (JSValue.field (findNextPair text i).key nv :: rest)
        | r => r
    else queryLoopF keep text fuel (findNextPair text i).endIndex

/-- The filter contribution to `computePreQuery`'s `arr`: runs the scanning
loop with the pre-classification predicate over the comma-terminated filter. -/
def preFilterArr (kws : List String) (filter : Option String) : Outcome (List JSValue) :=
  match filter with
  | none => .ok []
  | some f =>
    let f := withTrailingComma f
    queryLoopF (preKeep kws) f (f.length + 2) 0

/-- The filter contribution to `computePostQuery`'s `arr`. -/
def postFilterArr (kws : List String) (filter : Option String) : Outcome (List JSValue) :=
  match filter with
  | none => .ok []
  | some f =>
    let f := withTrailingComma f
    queryLoopF (postKeep kws) f (f.length + 2) 0

/-- The search contribution to `computePreQuery`'s `arr`
(`default.ts:278-285`): when the search term is a string or object, exists,
and search fields are configured, optionally wrap it via
`transformRegExpSearch`, then push one `\x7b field: normalize(search) \x7d`
condition per field, OR-combined. -/
def searchArr (cfg : Config) (search : Option JSValue) : Except NormError (List JSValue) :=
  match search with
  | none => .ok []
  | some sv =>
    if (isStringV sv || typeofObjectV sv) && isExistV sv &&
        decide (0 < cfg.searchFields.length) then
      let sv := if cfg.autoRegExpSearch then transformRegExpSearch sv else sv
      (searchFieldConds cfg.searchFields sv).map
        (fun sub => [JSValue.field "$or" (.arr (listToJSArr sub))])
    else .ok []
where
  /-- `searchFields.forEach(field => sub.push(\x7b [field]: normalize(search) \x7d))`. -/
  searchFieldConds : List String → JSValue → Except NormError (List JSValue)
  | [], _ => .ok []
  | f :: tl, sv => do
    let nv ← normalize sv
    let rest ← searchFieldConds tl sv
    .ok (JSValue.field f nv :: rest)

/-- The `$and` wrapping of a condition list (`default.ts:302`, `330`): a
non-empty `arr` becomes `\x7b $and: arr \x7d`, an empty one the empty match. -/
def matchOpt (arr : List JSValue) : JSValue :=
  if 0 < arr.length then JSValue.field "$and" (.arr (listToJSArr arr)) else .obj .nil

/-- `computePreQuery` (`default.ts:273-306`): search conditions then
pre-classified filter pairs; always appends exactly one match stage. -/
def computePreQuery (cfg : Config) (search : Option JSValue) (filter : Option String) :
    Outcome (List Stage) :=
  match searchArr cfg search with
  | .error e => .throws e
  | .ok sArr =>
    match preFilterArr cfg.postMatchKeywords filter with
    | .diverges => .diverges
    | .throws e => .throws e
    | .ok fArr => .ok [Stage.matchSt (matchOpt (sArr ++ fArr))]

/-- `computePostQuery` (`default.ts:310-335`): post-classified filter pairs;
returns `false` (here `none`) instead of a builder when no pair qualifies. -/
def computePostQuery (cfg : Config) (filter : Option String) :
    Outcome (Option (List Stage)) :=
  match postFilterArr cfg.postMatchKeywords filter with
  | .diverges => .diverges
  | .throws e => .throws e
  | .ok fArr =>
    if 0 < fArr.length then .ok (some [Stage.matchSt (matchOpt fArr)])
    else .ok none

/-- The sort-option accumulator: JavaScript object insertion semantics
(`opt[key] = order`): an existing key is overwritten in place, a new key is
appended. -/
def sortInsert (opt : List (String × Int)) (k : String) (v : Int) : List (String × Int) :=
  match opt with
  | [] => [(k, v)]
  | (k1, v1) :: tl => if k1 = k then (k1, v) :: tl else (k1, v1) :: sortInsert tl k v

/-- `computeSort` (`default.ts:337-356`): split the sort string on commas;
for each token the order key is `-` when the token starts with `-`, else `+`;
the first occurrence of the order key is removed and the remainder trimmed;
empty keys are skipped; returns `false` (`none`) when `sort` is absent. -/
def computeSort (sort : Option String) : Option (List Stage) :=
  match sort with
  | none => none
  | some s =>
    let opt := (splitOnComma s.data).foldl
      (fun opt o =>
        let oS := String.mk o
        let orderKey := if jsStartsWith oS "-" then "-" else "+"
        let key := jsTrim (jsReplaceFirst oS orderKey)
        let order : Int := if orderKey = "-" then -1 else 1
        if key = "" then opt else sortInsert opt key order)
      []
    some [Stage.sortSt opt]

/-- `computeOption` (`default.ts:358-371`): with both page and pageSize
present, `skip = (page-1)*pageSize` clamped to 0 for `page ≤ 0`, and the
builder receives `limit(pageSize + skip)` then `skip(skip)`; otherwise
`false` (`none`). -/
def computeOption (page pageSize : Option Int) : Option (List Stage) :=
  match page, pageSize with
  | some p, some ps =>
    let skip := if 0 < p then (p - 1) * ps else 0
    some [Stage.limitSt (ps + skip), Stage.skipSt skip]
  | _, _ => none

/-- `computePipeline` (`default.ts:373-385`): pre-query match, then the
caller-supplied `buildAggregateBuilder()` stages (`transform`), then sort,
then pagination, then the post-query match, each appended only when present. -/
def computePipeline (cfg : Config) (transform : List Stage) (search : Option JSValue)
    (filter : Option String) (sort : Option String) (page pageSize : Option Int) :
    Outcome (List Stage) :=
  match computePreQuery cfg search filter with
  | .diverges => .diverges
  | .throws e => .throws e
  | .ok pre =>
    let b := pre ++ transform
    let b := match computeSort sort with
      | some s => b ++ s
      | none => b
    let b := match computeOption page pageSize with
      | some p => b ++ p
      | none => b
    match computePostQuery cfg filter with
    | .diverges => .diverges
    | .throws e => .throws e
    | .ok (some q) => .ok (b ++ q)
    | .ok none => .ok b

/-! ## Specification-side helpers used to state the claims -/

/-- Terminal normalized types in the sense of the idempotence property:
booleans, numbers, dates and strings. -/
def isTerminal : JSValue → Bool
  | .bool _ => true
  | .num _ => true
  | .date _ => true
  | .str _ => true
  | _ => false

/-- All pairs the scanning loop tokenizes (same skeleton as `queryLoopF`,
with no classification and no normalization): the raw `(key, value)` pairs. -/
def allPairsF (text : String) : Nat → Nat → Outcome (List (String × String))
  | 0, _ => .diverges
  | fuel + 1, i =>
    if text.length < i then .ok []
    else if (findNextPair text i).key = "" ∧ (findNextPair text i).value = "" then .ok []
    else
      match allPairsF text fuel (findNextPair text i).endIndex with
      | .ok rest => .ok (((findNextPair text i).key, (findNextPair text i).value) :: rest)
      | r => r

/-- All pairs tokenized from a filter string, comma-terminated as the
controller does. -/
def allPairs (f : String) : Outcome (List (String × String)) :=
  let f := withTrailingComma f
  allPairsF f (f.length + 2) 0

/-- The conditions a classification loop builds from a token list: kept pairs
become `\x7b key: normalize(value) \x7d` singletons, in order. -/
def condsOf (keep : String → Bool) : List (String × String) → Except NormError (List JSValue)
  | [] => .ok []
  | (k, v) :: tl =>
    if keep k then
      match normalize (.str v) with
      | .error e => .error e
      | .ok nv =>
        match condsOf keep tl with
        | .error e => .error e
        | .ok rest => .ok (JSValue.field k nv :: rest)
    else condsOf keep tl

/-- Does the `findNextPair` scan starting in the given phase/depth find a
terminating comma (a `,` at bracket depth 0 in the value phase)? -/
def hasTerminatingComma (chars : List Char) (foundKey : Bool) (nested : Int) : Bool :=
  match chars with
  | [] => false
  | c :: rest =>
    if foundKey = false then
      if keyAllowed c then hasTerminatingComma rest false nested
      else if c = ':' then hasTerminatingComma rest true nested
      else hasTerminatingComma rest false nested
    else
      let nested2 := bracketStep nested c
      if nested2 = 0 ∧ c = ',' then true
      else hasTerminatingComma rest true nested2

/-- The key and value accumulated by a full scan that never breaks. -/
def scanAccum (chars : List Char) (foundKey : Bool) (nested : Int)
    (key value : List Char) : List Char × List Char :=
  match chars with
  | [] => (key, value)
  | c :: rest =>
    if foundKey = false then
      if keyAllowed c then scanAccum rest false nested (key ++ [c]) value
      else if c = ':' then scanAccum rest true nested key value
      else scanAccum rest false nested key value
    else
      let nested2 := bracketStep nested c
      scanAccum rest true nested2 key (value ++ [c])

/-! ## Concrete controller configurations used in end-to-end statements -/

/-- The configuration of the end-to-end compilation scenario: default
`autoRegExpSearch`, search fields `name` and `email`, no post-match
keywords. -/
def cfgC3 : Config := ⟨true, ["name", "email"], []⟩

/-- The case-insensitive contains-condition `transformRegExpSearch`
produces for the term `bob`. -/
def regexBob : JSValue :=
  .obj (.cons "$regex" (.str "bob") (.cons "$options" (.str "i") .nil))

/-- The pre-match condition compiled from search `bob` over `name`/`email`
and filter `status:active,`. -/
def preCondC3 : JSValue :=
  JSValue.field "$and" (.arr (listToJSArr
    [JSValue.field "$or" (.arr (listToJSArr
       [JSValue.field "name" regexBob, JSValue.field "email" regexBob])),
     JSValue.field "status" (.str "active")]))

/-! ## Claim theorems -/

/-- **C2 (counterexample).** `normalize` applied to the empty string does not
return the empty string unchanged: JavaScript `isNaN('')` is false
(`Number('')` is `0`), so the numeric-parse rule fires. -/
theorem c2_empty_string_counterexample :
    normalize (.str "") ≠ .ok (.str "") := by decide

/-- **C2 (amended).** `normalize` applied to the empty string `""` passes the
numeric-parse rule — `Number('')` evaluates to `0`, so `isNaN` is false — and
returns the number `0`; the ISO-date rule and the fall-through are never
reached. -/
theorem c2_empty_string_amended :
    normalize (.str "") = .ok (.num 0) := by decide

/-- **C6.** Repeatedly applying `findNextPair` to `a:1,b:\x7bc:2,d:3\x7d,e:5,`
from index 0, feeding each `endIndex` as the next `startIndex`, yields exactly
the three pairs `(a, 1)`, `(b, \x7bc:2,d:3\x7d)` — the nested fragment kept
intact because commas at bracket depth above 0 do not terminate a pair — and
`(e, 5)`, each `endIndex` (4, then 16) being the next call's `startIndex`, and
a fourth call at the final `endIndex` 20 hits the end-of-text sentinel. -/
theorem c6_tokenizer_example :
    findNextPair "a:1,b:\x7bc:2,d:3\x7d,e:5," 0 = ⟨0, 4, "a", "1"⟩ ∧
    findNextPair "a:1,b:\x7bc:2,d:3\x7d,e:5," 4 = ⟨4, 16, "b", "\x7bc:2,d:3\x7d"⟩ ∧
    findNextPair "a:1,b:\x7bc:2,d:3\x7d,e:5," 16 = ⟨16, 20, "e", "5"⟩ ∧
    findNextPair "a:1,b:\x7bc:2,d:3\x7d,e:5," 20 = ⟨20, 0, "", ""⟩ := by
  refine ⟨by decide, by decide, by decide, by decide⟩

/-- **C8.** `computeOption` with page 2 and pageSize 10 yields skip 10 and
limit 20 (`pageSize + skip`); with page 0 it clamps the skip to 0 and yields
limit 10; and with either argument absent it yields the no-stage sentinel. -/
theorem c8_computeOption_cases :
    computeOption (some 2) (some 10) = some [Stage.limitSt 20, Stage.skipSt 10] ∧
    computeOption (some 0) (some 10) = some [Stage.limitSt 10, Stage.skipSt 0] ∧
    (∀ p, computeOption none p = none) ∧
    (∀ p, computeOption p none = none) := by
  refine ⟨by decide, by decide, fun p => rfl, fun p => ?_⟩
  cases p <;> rfl

/-- **C9.** `computeSort "name,-age"` yields the ordering `name ↦ 1`,
`age ↦ -1` in that key order (the leading `-` is stripped and means
descending), and `computeSort` of an absent sort yields the no-stage
sentinel. -/
theorem c9_computeSort_cases :
    computeSort (some "name,-age") = some [Stage.sortSt [("name", 1), ("age", -1)]] ∧
    computeSort none = none := ⟨by decide, rfl⟩

/-- **C3 (counterexample).** With the default (empty) transform stage, the
claimed stage sequence — pre-match, sort, then a skip-0 stage followed by a
limit-5 stage — is not what the compiler produces: `computeOption` appends
the limit stage before the skip stage (`default.ts:363-364`). -/
theorem c3_pipeline_counterexample :
    computePipeline cfgC3 [] (some (.str "bob")) (some "status:active,")
      (some "-createdAt") (some 1) (some 5) ≠
    .ok [Stage.matchSt preCondC3, Stage.sortSt [("createdAt", -1)],
         Stage.skipSt 0, Stage.limitSt 5] := by decide

/-- **C3 (amended).** Compiling with search `bob`, search fields
`name`/`email`, filter `status:active,`, sort `-createdAt`, page 1, pageSize 5
and no post-keywords produces exactly: a pre-match stage (OR of `name`/`email`
conditions on `bob` ANDed with `status = active`), then the caller-supplied
transform stage(s), then sort by `createdAt` descending, then a limit-5 stage
(`limit = pageSize + skip = 5`), then a skip-0 stage, and no post-match
stage. -/
theorem c3_pipeline_amended (transform : List Stage) :
    computePipeline cfgC3 transform (some (.str "bob")) (some "status:active,")
      (some "-createdAt") (some 1) (some 5) =
    .ok (Stage.matchSt preCondC3 :: transform ++
      [Stage.sortSt [("createdAt", -1)], Stage.limitSt 5, Stage.skipSt 0]) := by
  have hpre : computePreQuery cfgC3 (some (.str "bob")) (some "status:active,") =
      .ok [Stage.matchSt preCondC3] := by decide
  have hpost : computePostQuery cfgC3 (some "status:active,") = .ok none := by decide
  have hsort : computeSort (some "-createdAt") = some [Stage.sortSt [("createdAt", -1)]] := by
    decide
  have hopt : computeOption (some 1) (some 5) = some [Stage.limitSt 5, Stage.skipSt 0] := by
    decide
  unfold computePipeline
  rw [hpre, hpost, hsort, hopt]
  simp

/-- **C1.** For every value whose textual form — `JSON.stringify` for
non-null objects, otherwise `String(...)` — contains `$function` or
`$accumulator`, `normalize` fails with the invalid-operator error; the guard
is the first branch of `normalize`, so this holds whatever the value's shape
and before any other normalization rule could apply. -/
theorem c1_security_guard (v : JSValue)
    (h : jsIncludes (textualForm v) "$function" = true ∨
         jsIncludes (textualForm v) "$accumulator" = true) :
    normalize v = .error NormError.invalidOperator := by
  unfold normalize
  rcases h with h | h <;> simp [normalizeF, h]

/-- **C1 (witness).** The guard fires on a concrete input. -/
theorem c1_security_guard_witness :
    (jsIncludes (textualForm (.str "a$functionb")) "$function" = true ∨
     jsIncludes (textualForm (.str "a$functionb")) "$accumulator" = true) ∧
    normalize (.str "a$functionb") = .error NormError.invalidOperator :=
  ⟨Or.inl (by decide), c1_security_guard (.str "a$functionb") (Or.inl (by decide))⟩

/-- When the scan never finds a terminating comma, `findNextPairGo` returns
the sentinel `endIndex = 0` with everything accumulated so far. -/
theorem findNextPairGo_noBreak (chars : List Char) : ∀ (pos : Nat) (foundKey : Bool)
    (nested : Int) (key value : List Char) (si : Nat),
    hasTerminatingComma chars foundKey nested = false →
    findNextPairGo chars pos foundKey nested key value si =
      ⟨si, 0, String.mk (scanAccum chars foundKey nested key value).1,
        String.mk (scanAccum chars foundKey nested key value).2⟩ := by
  induction chars with
  | nil => intro pos foundKey nested key value si _; rfl
  | cons c rest ih =>
    intro pos foundKey nested key value si h
    cases foundKey with
    | false =>
      by_cases hk : keyAllowed c
      · simp only [findNextPairGo, hasTerminatingComma, scanAccum, hk, if_true,
          if_pos rfl] at h ⊢
        exact ih _ _ _ _ _ _ h
      · by_cases hc : c = ':'
        · simp only [findNextPairGo, hasTerminatingComma, scanAccum, hk, hc,
            if_true, if_false, if_pos rfl, Bool.false_eq_true] at h ⊢
          exact ih _ _ _ _ _ _ h
        · simp only [findNextPairGo, hasTerminatingComma, scanAccum, hk, hc,
            if_true, if_false, if_pos rfl, Bool.false_eq_true] at h ⊢
          exact ih _ _ _ _ _ _ h
    | true =>
      by_cases hb : bracketStep nested c = 0 ∧ c = ','
      · obtain ⟨h1, h2⟩ := hb
        subst h2
        simp [hasTerminatingComma, h1] at h
      · simp only [findNextPairGo, hasTerminatingComma, scanAccum,
          if_neg (by simp : ¬(true = false)), hb, if_false] at h ⊢
        exact ih _ _ _ _ _ _ h

/-- **C7.** `findNextPair` is a total function of its text and start index;
whenever the scan reaches the end of the text without finding a terminating
comma at bracket depth 0, the result's `endIndex` is 0 and its key and value
are exactly the characters the scan accumulated, so malformed input degrades
to an incomplete pair rather than an error. -/
theorem c7_tokenizer_degrades (text : String) (start : Nat)
    (h : hasTerminatingComma (text.data.drop start) false 0 = false) :
    (findNextPair text start).endIndex = 0 ∧
    (findNextPair text start).key =
      String.mk (scanAccum (text.data.drop start) false 0 [] []).1 ∧
    (findNextPair text start).value =
      String.mk (scanAccum (text.data.drop start) false 0 [] []).2 := by
  unfold findNextPair
  rw [findNextPairGo_noBreak _ _ _ _ _ _ _ h]
  exact ⟨rfl, rfl, rfl⟩

/-- **C7 (witness).** On the unbalanced input `a:\x7b1` the scan finds no
terminating comma and returns the degraded pair. -/
theorem c7_tokenizer_degrades_witness :
    hasTerminatingComma (("a:\x7b1" : String).data.drop 0) false 0 = false ∧
    ((findNextPair "a:\x7b1" 0).endIndex = 0 ∧
     (findNextPair "a:\x7b1" 0).key =
       String.mk (scanAccum (("a:\x7b1" : String).data.drop 0) false 0 [] []).1 ∧
     (findNextPair "a:\x7b1" 0).value =
       String.mk (scanAccum (("a:\x7b1" : String).data.drop 0) false 0 [] []).2) :=
  ⟨by decide, c7_tokenizer_degrades "a:\x7b1" 0 (by decide)⟩

/-- `computePreQuery` always returns exactly one match stage: it calls
`builder.match(opt)` unconditionally. -/
theorem computePreQuery_shape (cfg : Config) (s : Option JSValue) (f : Option String)
    (pre : List Stage) (h : computePreQuery cfg s f = .ok pre) :
    ∃ c, pre = [Stage.matchSt c] := by
  unfold computePreQuery at h
  cases hs : searchArr cfg s with
  | error e => simp [hs] at h
  | ok sArr =>
    cases hf : preFilterArr cfg.postMatchKeywords f with
    | diverges => simp [hs, hf] at h
    | throws e => simp [hs, hf] at h
    | ok fArr =>
      simp only [hs, hf] at h
      exact ⟨matchOpt (sArr ++ fArr), by injection h with h; exact h.symm⟩

/-- **C10.** The compiled pipeline always begins with a match stage: with
every input absent it is exactly the empty-condition match (which matches
every document) followed by the caller-supplied transform stages, and for
every input combination on which compilation returns, the first stage is the
match stage `computePreQuery` unconditionally appended. -/
theorem c10_pipeline_match_first (cfg : Config) (transform : List Stage) :
    computePipeline cfg transform none none none none none =
      .ok (Stage.matchSt (.obj .nil) :: transform) ∧
    ∀ search filter sort page pageSize stages,
      computePipeline cfg transform search filter sort page pageSize = .ok stages →
      ∃ c rest, stages = Stage.matchSt c :: rest := by
  constructor
  · simp [computePipeline, computePreQuery, searchArr, preFilterArr, computePostQuery,
      postFilterArr, computeSort, computeOption, matchOpt]
  · intro s f srt pg ps stages h
    unfold computePipeline at h
    cases hpre : computePreQuery cfg s f with
    | diverges => simp [hpre] at h
    | throws e => simp [hpre] at h
    | ok pre =>
      obtain ⟨c, hc⟩ := computePreQuery_shape cfg s f pre hpre
      subst hc
      simp only [hpre] at h
      cases hpost : computePostQuery cfg f with
      | diverges => simp [hpost] at h
      | throws e => simp [hpost] at h
      | ok q =>
        cases q with
        | none =>
          simp only [hpost] at h
          cases hsrt : computeSort srt <;> cases hopt : computeOption pg ps <;>
            simp only [hsrt, hopt] at h <;>
            exact ⟨c, _, by simpa using h.symm⟩
        | some q1 =>
          simp only [hpost] at h
          cases hsrt : computeSort srt <;> cases hopt : computeOption pg ps <;>
            simp only [hsrt, hopt] at h <;>
            exact ⟨c, _, by simpa using h.symm⟩

/-- **C10 (witness).** The shape property at a concrete configuration and
input. -/
theorem c10_pipeline_match_first_witness :
    computePipeline ⟨true, [], []⟩ [] none none none none none =
      .ok [Stage.matchSt (.obj .nil)] ∧
    (∃ c rest, [Stage.matchSt (JSValue.obj .nil)] = Stage.matchSt c :: rest) :=
  ⟨by decide,
   (c10_pipeline_match_first ⟨true, [], []⟩ []).2 none none none none none
     [Stage.matchSt (.obj .nil)] (by decide)⟩


/-- A terminating run of the classification loop tokenizes some pair list
(computed by `allPairsF` with the same fuel) and produces exactly the
conditions `condsOf` builds from the kept pairs. -/
theorem queryLoopF_toks (keep : String → Bool) (text : String) :
    ∀ (fuel i : Nat) (l : List JSValue),
    queryLoopF keep text fuel i = .ok l →
    ∃ toks, allPairsF text fuel i = .ok toks ∧ condsOf keep toks = .ok l := by
  intro fuel
  induction fuel with
  | zero => intro i l h; exact absurd h (by simp [queryLoopF])
  | succ fuel ih =>
    intro i l h
    rw [queryLoopF] at h
    by_cases hlen : text.length < i
    · rw [if_pos hlen] at h
      injection h with h
      exact ⟨[], by rw [allPairsF, if_pos hlen], by rw [condsOf, h]⟩
    · rw [if_neg hlen] at h
      by_cases hsent : (findNextPair text i).key = "" ∧ (findNextPair text i).value = ""
      · rw [if_pos hsent] at h
        injection h with h
        exact ⟨[], by rw [allPairsF, if_neg hlen, if_pos hsent], by rw [condsOf, h]⟩
      · rw [if_neg hsent] at h
        by_cases hkeep : keep (findNextPair text i).key = true
        · rw [if_pos hkeep] at h
          cases hn : normalize (.str (findNextPair text i).value) with
          | error e => rw [hn] at h; exact absurd h (by simp)
          | ok nv =>
            rw [hn] at h
            cases hrec : queryLoopF keep text fuel (findNextPair text i).endIndex with
            | diverges => rw [hrec] at h; exact absurd h (by simp)
            | throws e => rw [hrec] at h; exact absurd h (by simp)
            | ok rest =>
              rw [hrec] at h
              injection h with h
              obtain ⟨toks, ht, hc⟩ := ih _ rest hrec
              refine ⟨((findNextPair text i).key, (findNextPair text i).value) :: toks, ?_, ?_⟩
              · rw [allPairsF, if_neg hlen, if_neg hsent, ht]
              · rw [condsOf, if_pos hkeep, hn, hc]
                simp [h]
        · rw [if_neg hkeep] at h
          obtain ⟨toks, ht, hc⟩ := ih _ l h
          refine ⟨((findNextPair text i).key, (findNextPair text i).value) :: toks, ?_, ?_⟩
          · rw [allPairsF, if_neg hlen, if_neg hsent, ht]
          · rw [condsOf, if_neg hkeep, hc]

/-- Every condition a classification run produces comes from a kept
tokenized pair. -/
theorem condsOf_mem_ex (keep : String → Bool) :
    ∀ (toks : List (String × String)) (l : List JSValue),
    condsOf keep toks = .ok l → ∀ x ∈ l,
    ∃ k v nv, (k, v) ∈ toks ∧ keep k = true ∧ normalize (.str v) = .ok nv ∧
      x = JSValue.field k nv := by
  intro toks
  induction toks with
  | nil =>
    intro l h x hx
    rw [condsOf] at h
    injection h with h
    rw [← h] at hx
    exact absurd hx (by simp)
  | cons p tl ih =>
    intro l h x hx
    obtain ⟨k, v⟩ := p
    rw [condsOf] at h
    by_cases hkeep : keep k = true
    · rw [if_pos hkeep] at h
      cases hn : normalize (.str v) with
      | error e => rw [hn] at h; exact absurd h (by simp)
      | ok nv =>
        rw [hn] at h
        cases hrest : condsOf keep tl with
        | error e => rw [hrest] at h; exact absurd h (by simp)
        | ok rest =>
          rw [hrest] at h
          injection h with h
          rw [← h] at hx
          rcases List.mem_cons.mp hx with hx | hx
          · exact ⟨k, v, nv, by simp, hkeep, hn, hx⟩
          · obtain ⟨k1, v1, nv1, hmem, hk1, hn1, hx1⟩ := ih rest hrest x hx
            exact ⟨k1, v1, nv1, by simp [hmem], hk1, hn1, hx1⟩
    · rw [if_neg hkeep] at h
      obtain ⟨k1, v1, nv1, hmem, hk1, hn1, hx1⟩ := ih l h x hx
      exact ⟨k1, v1, nv1, by simp [hmem], hk1, hn1, hx1⟩

/-- Every kept tokenized pair contributes its condition to the
classification run's output. -/
theorem condsOf_mem_of (keep : String → Bool) :
    ∀ (toks : List (String × String)) (l : List JSValue),
    condsOf keep toks = .ok l → ∀ k v, (k, v) ∈ toks → keep k = true →
    ∃ nv, normalize (.str v) = .ok nv ∧ JSValue.field k nv ∈ l := by
  intro toks
  induction toks with
  | nil => intro l _ k v hmem; exact absurd hmem (by simp)
  | cons p tl ih =>
    intro l h k v hmem hkeep
    obtain ⟨k0, v0⟩ := p
    rw [condsOf] at h
    by_cases hkeep0 : keep k0 = true
    · rw [if_pos hkeep0] at h
      cases hn : normalize (.str v0) with
      | error e => rw [hn] at h; exact absurd h (by simp)
      | ok nv =>
        rw [hn] at h
        cases hrest : condsOf keep tl with
        | error e => rw [hrest] at h; exact absurd h (by simp)
        | ok rest =>
          rw [hrest] at h
          injection h with h
          rcases List.mem_cons.mp hmem with hp | hp
          · obtain ⟨hk, hv⟩ := Prod.mk.injEq .. ▸ hp
            refine ⟨nv, ?_, ?_⟩
            · rw [← hv] at hn; exact hn
            · rw [← h, ← hk]; simp
          · obtain ⟨nv1, hn1, hmem1⟩ := ih rest hrest k v hp hkeep
            exact ⟨nv1, hn1, by rw [← h]; simp [hmem1]⟩
    · rw [if_neg hkeep0] at h
      rcases List.mem_cons.mp hmem with hp | hp
      · obtain ⟨hk, hv⟩ := Prod.mk.injEq .. ▸ hp
        rw [hk] at hkeep
        exact absurd hkeep hkeep0
      · exact ih l h k v hp hkeep

/-- **C4.** For every filter string and post-keyword list on which the two
classification passes return, pre-classification and post-classification
partition the tokenized pairs: a pair's condition lands in the post output
exactly when its key contains at least one post-keyword and in the pre output
otherwise, every member of each output comes from a pair classified that way,
and no condition appears in both outputs. -/
theorem c4_classifier_partition (kws : List String) (filter : String) (l1 l2 : List JSValue)
    (h1 : preFilterArr kws (some filter) = .ok l1)
    (h2 : postFilterArr kws (some filter) = .ok l2) :
    ∃ toks, allPairs filter = .ok toks ∧
      (∀ x, x ∈ l1 → x ∈ l2 → False) ∧
      (∀ k v, (k, v) ∈ toks →
        ∃ nv, normalize (.str v) = .ok nv ∧
          (if postKeep kws k then JSValue.field k nv ∈ l2 ∧ JSValue.field k nv ∉ l1
           else JSValue.field k nv ∈ l1 ∧ JSValue.field k nv ∉ l2)) ∧
      (∀ x, x ∈ l1 → ∃ k nv, x = JSValue.field k nv ∧ postKeep kws k = false) ∧
      (∀ x, x ∈ l2 → ∃ k nv, x = JSValue.field k nv ∧ postKeep kws k = true) := by
  simp only [preFilterArr] at h1
  simp only [postFilterArr] at h2
  obtain ⟨toks1, ht1, hc1⟩ := queryLoopF_toks (preKeep kws) _ _ _ _ h1
  obtain ⟨toks2, ht2, hc2⟩ := queryLoopF_toks (postKeep kws) _ _ _ _ h2
  rw [ht1] at ht2
  injection ht2 with htoks
  subst htoks
  have hpre_not : ∀ k, preKeep kws k = !postKeep kws k := fun _ => rfl
  have hl1shape : ∀ x, x ∈ l1 → ∃ k nv, x = JSValue.field k nv ∧ postKeep kws k = false := by
    intro x hx
    obtain ⟨k, v, nv, _, hkp, _, hx⟩ := condsOf_mem_ex (preKeep kws) toks1 l1 hc1 x hx
    rw [hpre_not, Bool.not_eq_eq_eq_not] at hkp
    exact ⟨k, nv, hx, by simpa using hkp⟩
  have hl2shape : ∀ x, x ∈ l2 → ∃ k nv, x = JSValue.field k nv ∧ postKeep kws k = true := by
    intro x hx
    obtain ⟨k, v, nv, _, hkp, _, hx⟩ := condsOf_mem_ex (postKeep kws) toks1 l2 hc2 x hx
    exact ⟨k, nv, hx, hkp⟩
  have hdisj : ∀ x, x ∈ l1 → x ∈ l2 → False := by
    intro x hx1 hx2
    obtain ⟨k, nv, hx, hk⟩ := hl1shape x hx1
    obtain ⟨k1, nv1, hx1e, hk1⟩ := hl2shape x hx2
    rw [hx] at hx1e
    have hkk : k = k1 := by
      have := hx1e
      simp only [JSValue.field, JSValue.obj.injEq, JSObj.cons.injEq] at this
      exact this.1
    rw [← hkk] at hk1
    rw [hk1] at hk
    exact absurd hk (by simp)
  refine ⟨toks1, ?_, hdisj, ?_, hl1shape, hl2shape⟩
  · simp only [allPairs]
    exact ht1
  · intro k v hmem
    by_cases hpk : postKeep kws k = true
    · obtain ⟨nv, hn, hin⟩ := condsOf_mem_of (postKeep kws) toks1 l2 hc2 k v hmem hpk
      refine ⟨nv, hn, ?_⟩
      rw [if_pos hpk]
      exact ⟨hin, fun hcontra => hdisj _ hcontra hin⟩
    · have hkp : preKeep kws k = true := by
        rw [hpre_not]
        simp only [Bool.not_eq_true] at hpk
        simp [hpk]
      obtain ⟨nv, hn, hin⟩ := condsOf_mem_of (preKeep kws) toks1 l1 hc1 k v hmem hkp
      refine ⟨nv, hn, ?_⟩
      rw [if_neg hpk]
      exact ⟨hin, fun hcontra => hdisj _ hin hcontra⟩

/-- **C4 (witness).** The partition at the filter `name:x,status:active,`
with post-keywords `status`. -/
theorem c4_classifier_partition_witness :
    preFilterArr ["status"] (some "name:x,status:active,") =
      .ok [JSValue.field "name" (.str "x")] ∧
    postFilterArr ["status"] (some "name:x,status:active,") =
      .ok [JSValue.field "status" (.str "active")] ∧
    (∃ toks, allPairs "name:x,status:active," = .ok toks ∧
      (∀ x, x ∈ [JSValue.field "name" (.str "x")] →
        x ∈ [JSValue.field "status" (.str "active")] → False) ∧
      (∀ k v, (k, v) ∈ toks →
        ∃ nv, normalize (.str v) = .ok nv ∧
          (if postKeep ["status"] k then
            JSValue.field k nv ∈ [JSValue.field "status" (.str "active")] ∧
            JSValue.field k nv ∉ [JSValue.field "name" (.str "x")]
           else
            JSValue.field k nv ∈ [JSValue.field "name" (.str "x")] ∧
            JSValue.field k nv ∉ [JSValue.field "status" (.str "active")])) ∧
      (∀ x, x ∈ [JSValue.field "name" (.str "x")] →
        ∃ k nv, x = JSValue.field k nv ∧ postKeep ["status"] k = false) ∧
      (∀ x, x ∈ [JSValue.field "status" (.str "active")] →
        ∃ k nv, x = JSValue.field k nv ∧ postKeep ["status"] k = true)) :=
  ⟨by decide, by decide,
   c4_classifier_partition ["status"] "name:x,status:active," _ _ (by decide) (by decide)⟩

/-- A head match only uses characters of the haystack. -/
theorem leadMatch_subset : ∀ (sub l : List Char), leadMatch sub l = true →
    ∀ c ∈ sub, c ∈ l := by
  intro sub
  induction sub with
  | nil => intro l _ c hc; exact absurd hc (by simp)
  | cons a as ih =>
    intro l h c hc
    cases l with
    | nil => exact absurd h (by simp [leadMatch])
    | cons b bs =>
      rw [leadMatch, Bool.and_eq_true] at h
      rcases List.mem_cons.mp hc with hc | hc
      · have hab : a = b := by simpa using h.1
        simp [hc, hab]
      · exact List.mem_cons_of_mem _ (ih bs h.2 c hc)

/-- A contained run only uses characters of the haystack. -/
theorem containsSub_subset : ∀ (l sub : List Char), containsSub sub l = true →
    ∀ c ∈ sub, c ∈ l := by
  intro l
  induction l with
  | nil =>
    intro sub h c hc
    rw [containsSub] at h
    rw [List.isEmpty_iff.mp h] at hc
    exact absurd hc (by simp)
  | cons b bs ih =>
    intro sub h c hc
    rw [containsSub, Bool.or_eq_true] at h
    rcases h with h | h
    · exact leadMatch_subset sub (b :: bs) h c hc
    · exact List.mem_cons_of_mem _ (ih sub h c hc)

/-- Stripping a final character absent from the needle preserves a head
match. -/
theorem leadMatch_strip_last (b : Char) : ∀ (n h : List Char),
    leadMatch n (h ++ [b]) = true → b ∉ n → leadMatch n h = true := by
  intro n
  induction n with
  | nil => intro h _ _; rfl
  | cons a as ih =>
    intro h hlm hb
    cases h with
    | nil =>
      simp only [List.nil_append, leadMatch, Bool.and_eq_true] at hlm
      have : a = b := by simpa using hlm.1
      exact absurd (this ▸ List.mem_cons_self a as) hb
    | cons y ys =>
      simp only [List.cons_append, leadMatch, Bool.and_eq_true] at hlm ⊢
      exact ⟨hlm.1, ih ys hlm.2 (fun hmem => hb (List.mem_cons_of_mem _ hmem))⟩

/-- Stripping a final character absent from the needle preserves
containment (or the needle is empty). -/
theorem containsSub_strip_last (b : Char) : ∀ (l n : List Char),
    containsSub n (l ++ [b]) = true → b ∉ n →
    containsSub n l = true ∨ n = [] := by
  intro l
  induction l with
  | nil =>
    intro n h hb
    cases n with
    | nil => exact Or.inr rfl
    | cons a as =>
      rw [List.nil_append, containsSub, Bool.or_eq_true] at h
      rcases h with h | h
      · simp only [leadMatch, Bool.and_eq_true] at h
        have : a = b := by simpa using h.1
        exact absurd (this ▸ List.mem_cons_self a as) hb
      · rw [containsSub] at h
        exact absurd (List.isEmpty_iff.mp h) (by simp)
  | cons c tl ih =>
    intro n h hb
    rw [List.cons_append, containsSub, Bool.or_eq_true] at h
    rcases h with h | h
    · cases n with
      | nil => exact Or.inr rfl
      | cons a as =>
        left
        rw [containsSub, Bool.or_eq_true]
        exact Or.inl (leadMatch_strip_last b (a :: as) (c :: tl) h hb)
    · rcases ih n h hb with h1 | h1
      · left
        rw [containsSub, Bool.or_eq_true]
        exact Or.inr h1
      · exact Or.inr h1

/-- A run contained in `a :: l ++ [b]`, with `a` and `b` absent from the
needle, is contained in `l` (or the needle is empty). -/
theorem containsSub_middle (n l : List Char) (a b : Char)
    (h : containsSub n (a :: (l ++ [b])) = true) (ha : a ∉ n) (hb : b ∉ n) :
    containsSub n l = true ∨ n = [] := by
  rw [containsSub, Bool.or_eq_true] at h
  rcases h with h | h
  · cases n with
    | nil => exact Or.inr rfl
    | cons c cs =>
      simp only [leadMatch, Bool.and_eq_true] at h
      have : c = a := by simpa using h.1
      exact absurd (this ▸ List.mem_cons_self c cs) ha
  · exact containsSub_strip_last b l n h hb

/-- The ten decimal digit characters. -/
def digits10 : List Char := ['0', '1', '2', '3', '4', '5', '6', '7', '8', '9']

/-- `digitChar` always lands in the digit set. -/
theorem digitChar_mem (m : Nat) : digitChar m ∈ digits10 := by
  rcases m with _ | _ | _ | _ | _ | _ | _ | _ | _ | m <;> simp [digitChar, digits10]

/-- Every character `natPrint` emits is a decimal digit character. -/
theorem natPrint_chars : ∀ (fuel n : Nat), ∀ c ∈ natPrint fuel n, c ∈ digits10 := by
  intro fuel
  induction fuel with
  | zero => intro n c hc; exact absurd hc (by simp [natPrint])
  | succ fuel ih =>
    intro n c hc
    rw [natPrint] at hc
    by_cases h : n < 10
    · rw [if_pos h] at hc
      rcases List.mem_singleton.mp hc with rfl
      exact digitChar_mem n
    · rw [if_neg h] at hc
      rcases List.mem_append.mp hc with hc | hc
      · exact ih _ c hc
      · rcases List.mem_singleton.mp hc with rfl
        exact digitChar_mem _

/-- Shared facts about digit characters, provable by enumeration. -/
theorem digit_facts : ∀ c ∈ digits10,
    c.isDigit = true ∧ isWSChar c = false ∧ jsLowerChar c = c ∧
    c ≠ '-' ∧ c ≠ '+' ∧ c ≠ '$' ∧ c ≠ 't' ∧ c ≠ 'f' := by
  intro c hc
  fin_cases hc <;> refine ⟨by decide, by decide, by decide, by decide, by decide,
    by decide, by decide, by decide⟩

/-- Appending one character to the digit run shifts the accumulator. -/
theorem parseDigitsAux_append : ∀ (l : List Char) (c : Char) (acc : Nat),
    parseDigitsAux (l ++ [c]) acc =
      match parseDigitsAux l acc with
      | some m => if c.isDigit then some (m * 10 + digitVal c) else none
      | none => none := by
  intro l
  induction l with
  | nil =>
    intro c acc
    by_cases h : c.isDigit <;> simp [parseDigitsAux, h]
  | cons b bs ih =>
    intro c acc
    by_cases hb : b.isDigit
    · simp only [List.cons_append, parseDigitsAux, if_pos hb]
      exact ih c _
    · simp [parseDigitsAux, hb]

/-- Digit/char roundtrip below 10. -/
theorem digitVal_digitChar (m : Nat) (h : m < 10) : digitVal (digitChar m) = m := by
  interval_cases m <;> decide

/-- `natPrint` never returns the empty list with positive fuel. -/
theorem natPrint_ne_nil (fuel n : Nat) : natPrint (fuel + 1) n ≠ [] := by
  rw [natPrint]
  by_cases h : n < 10
  · simp [h]
  · simp [h]

/-- Parsing the printed digits of `n` gives back `n`. -/
theorem parse_natPrint : ∀ (fuel n : Nat), n ≤ fuel →
    parseDigitsAux (natPrint (fuel + 1) n) 0 = some n := by
  intro fuel
  induction fuel with
  | zero =>
    intro n hn
    interval_cases n
    decide
  | succ fuel ih =>
    intro n hn
    rw [natPrint]
    by_cases h : n < 10
    · rw [if_pos h]
      have hd := digit_facts (digitChar n) (digitChar_mem n)
      simp [parseDigitsAux, hd.1, digitVal_digitChar n h]
    · rw [if_neg h]
      rw [parseDigitsAux_append]
      have hdiv : n / 10 ≤ fuel := by omega
      rw [ih (n / 10) hdiv]
      have hd := digit_facts (digitChar (n % 10)) (digitChar_mem (n % 10))
      have hv := digitVal_digitChar (n % 10) (by omega : n % 10 < 10)
      simp [hd.1, hv]
      omega

/-- A whitespace-free list is unchanged by trimming. -/
theorem trimChars_of_no_ws (l : List Char) (h : ∀ c ∈ l, isWSChar c = false) :
    trimChars l = l := by
  unfold trimChars
  have h1 : l.dropWhile isWSChar = l := by
    cases l with
    | nil => rfl
    | cons c tl => rw [List.dropWhile_cons_of_neg (by simp [h c (by simp)])]
  rw [h1]
  have h2 : l.reverse.dropWhile isWSChar = l.reverse := by
    cases hr : l.reverse with
    | nil => rfl
    | cons c tl =>
      have hc : c ∈ l := by
        rw [← List.mem_reverse, hr]
        simp
      rw [List.dropWhile_cons_of_neg (by simp [h c hc])]
  rw [h2, List.reverse_reverse]

/-- Parsing never sees whitespace in printed digits. -/
theorem natPrint_no_ws (fuel n : Nat) : ∀ c ∈ natPrint fuel n, isWSChar c = false :=
  fun c hc => (digit_facts c (natPrint_chars fuel n c hc)).2.1

/-- `parseDigits` inverts `natPrint`. -/
theorem parseDigits_natPrint (m : Nat) : parseDigits (natPrint (m + 1) m) = some m := by
  cases hnp : natPrint (m + 1) m with
  | nil => exact absurd hnp (natPrint_ne_nil m m)
  | cons c tl =>
    rw [show parseDigits (c :: tl) = parseDigitsAux (c :: tl) 0 from rfl, ← hnp,
      parse_natPrint m m le_rfl]

/-- Evaluation of `jsToNumber` once the trimmed characters are known. -/
theorem jsToNumber_eq_cons (s : String) (c : Char) (tl : List Char)
    (h : trimChars s.data = c :: tl) :
    jsToNumber s =
      if c = '-' then (parseDigits tl).map (fun n => -(n : Int))
      else if c = '+' then (parseDigits tl).map (fun n => (n : Int))
      else (parseDigits (c :: tl)).map (fun n => (n : Int)) := by
  unfold jsToNumber
  rw [h]

/-- JavaScript `Number(String(n))` gives back `n`: the rendering of every
integer reparses to itself. -/
theorem jsToNumber_intToString (n : Int) : jsToNumber (intToString n) = some n := by
  cases n with
  | ofNat m =>
    have hdata : (intToString (.ofNat m)).data = natPrint (m + 1) m := rfl
    cases hnp : natPrint (m + 1) m with
    | nil => exact absurd hnp (natPrint_ne_nil m m)
    | cons c tl =>
      have heq : trimChars (intToString (.ofNat m)).data = c :: tl := by
        rw [hdata, trimChars_of_no_ws _ (natPrint_no_ws _ _), hnp]
      have hc := digit_facts c (natPrint_chars (m + 1) m c (by rw [hnp]; simp))
      rw [jsToNumber_eq_cons _ c tl heq, if_neg (by simpa using hc.2.2.2.1),
        if_neg (by simpa using hc.2.2.2.2.1), ← hnp, parseDigits_natPrint]
      rfl
  | negSucc m =>
    have hdata : (intToString (.negSucc m)).data = '-' :: natPrint (m + 2) (m + 1) := by
      show (("-" : String) ++ natToString (m + 1)).data = _
      rw [String.data_append]
      rfl
    have hnws : ∀ c ∈ '-' :: natPrint (m + 2) (m + 1), isWSChar c = false := by
      intro c hc
      rcases List.mem_cons.mp hc with rfl | hc
      · decide
      · exact natPrint_no_ws _ _ c hc
    have heq : trimChars (intToString (.negSucc m)).data = '-' :: natPrint (m + 2) (m + 1) := by
      rw [hdata, trimChars_of_no_ws _ hnws]
    rw [jsToNumber_eq_cons _ _ _ heq, if_pos rfl, parseDigits_natPrint (m + 1)]
    simp [Int.negSucc_eq]

/-- `dropWhile` distributes over a final element the predicate rejects. -/
theorem dropWhile_append_last (p : Char → Bool) (a : List Char) (c : Char)
    (h : p c = false) : (a ++ [c]).dropWhile p = a.dropWhile p ++ [c] := by
  induction a with
  | nil => simp [List.dropWhile, h]
  | cons x tl ih =>
    by_cases hx : p x
    · simp [List.dropWhile, hx, ih]
    · simp [List.dropWhile, hx]

/-- Trimming preserves a non-whitespace head character. -/
theorem trimChars_head (c : Char) (r : List Char) (h : isWSChar c = false) :
    ∃ t, trimChars (c :: r) = c :: t := by
  unfold trimChars
  rw [List.dropWhile_cons_of_neg (by simp [h])]
  have : (c :: r).reverse = r.reverse ++ [c] := by simp
  rw [this, dropWhile_append_last _ _ _ h]
  exact ⟨(r.reverse.dropWhile isWSChar).reverse, by simp⟩

/-- `jsToNumber` is `NaN` whenever the first non-trimmed character is neither
a digit nor a sign. -/
theorem jsToNumber_head_none (s : String) (c : Char) (r : List Char)
    (hd : s.data = c :: r) (hws : isWSChar c = false) (hdig : c.isDigit = false)
    (hm : c ≠ '-') (hp : c ≠ '+') : jsToNumber s = none := by
  obtain ⟨t, ht⟩ := trimChars_head c r hws
  rw [jsToNumber_eq_cons s c t (by rw [hd]; exact ht), if_neg hm, if_neg hp]
  rw [show parseDigits (c :: t) = parseDigitsAux (c :: t) 0 from rfl]
  simp [parseDigitsAux, hdig]

/-- An ISO-8601 match starts with a digit. -/
theorem isoDate_head : ∀ (l : List Char), isoDate l = true →
    ∃ c r, l = c :: r ∧ c.isDigit = true := by
  intro l h
  unfold isoDate at h
  split at h
  · next y1 y2 y3 y4 m1 m2 d1 d2 rest =>
    simp only [Bool.and_eq_true] at h
    exact ⟨y1, _, rfl, h.1.1.1.1.1.1.1.1⟩
  · exact absurd h (by simp)

/-- `isISO8601` fails whenever the first character is not a digit. -/
theorem isISO8601_head_false (s : String) (c : Char) (r : List Char)
    (hd : s.data = c :: r) (hdig : c.isDigit = false) : isISO8601 s = false := by
  cases hiso : isISO8601 s with
  | false => rfl
  | true =>
    unfold isISO8601 at hiso
    rw [hd] at hiso
    obtain ⟨c1, r1, heq, hdg⟩ := isoDate_head _ hiso
    injection heq with h1 _
    rw [← h1] at hdg
    rw [hdg] at hdig
    exact absurd hdig (by simp)

/-- Two strings with different lower-cased head characters differ after
`toLowerCase`. -/
theorem jsToLower_ne_of_head (s : String) (c : Char) (r : List Char) (u : String)
    (c2 : Char) (r2 : List Char) (hd : s.data = c :: r) (hu : u.data = c2 :: r2)
    (hne : jsLowerChar c ≠ c2) : jsToLower s ≠ u := by
  intro h
  have h2 : jsLowerChar c :: r.map jsLowerChar = c2 :: r2 := by
    calc jsLowerChar c :: r.map jsLowerChar = (jsToLower s).data := by
          rw [jsToLower, hd]; rfl
      _ = u.data := by rw [h]
      _ = c2 :: r2 := hu
  injection h2 with h2a _
  exact hne h2a

/-- The textual form of a plain string is the string itself. -/
theorem textualForm_str (s : String) : textualForm (.str s) = s := rfl

/-- The textual form of a number is its decimal rendering. -/
theorem textualForm_num (n : Int) : textualForm (.num n) = intToString n := rfl

/-- The textual form of a `Date` is its quoted ISO text. -/
theorem textualForm_date (d : String) : textualForm (.date d) = "\"" ++ d ++ "\"" := rfl

/-- The textual form of an object is its JSON rendering. -/
theorem textualForm_obj (fs : JSObj) : textualForm (.obj fs) = jsonStringify (.obj fs) := rfl

/-- The quoted ISO text's characters: quote, body, quote. -/
theorem quoted_data (d : String) : (("\"" ++ d ++ "\"" : String)).data = '"' :: (d.data ++ ['"']) := by
  rw [String.data_append, String.data_append]
  rfl

/-- A JSON object rendering starts with an opening brace. -/
theorem jsonStringify_obj_data (fs : JSObj) :
    ∃ t, (jsonStringify (.obj fs)).data = '\x7b' :: t := by
  rw [show jsonStringify (.obj fs) = "\x7b" ++ jsonStringifyObj fs ++ "\x7d" from rfl,
    String.data_append, String.data_append]
  exact ⟨(jsonStringifyObj fs).data ++ ['\x7d'], rfl⟩

/-- The fuel bound is always positive. -/
theorem normalizeFuel_succ (v : JSValue) : ∃ f, normalizeFuel v = f + 1 :=
  ⟨4 * jsSize v + 4 * jsSize v * jsSize v + 2, by unfold normalizeFuel; omega⟩

/-- A boolean re-normalizes to itself: its textual form is `true`/`false`,
which the literal branch returns unchanged. -/
theorem normalize_bool (b : Bool) : normalize (.bool b) = .ok (.bool b) := by
  cases b <;> decide

/-- A number re-normalizes to itself: `Number(String(n))` is `n` again. -/
theorem normalize_num (n : Int) : normalize (.num n) = .ok (.num n) := by
  have hchars : ∀ c ∈ (intToString n).data, c = '-' ∨ c ∈ digits10 := by
    intro c hc
    cases n with
    | ofNat m => exact Or.inr (natPrint_chars (m + 1) m c hc)
    | negSucc m =>
      rw [show (intToString (.negSucc m)).data = '-' :: natPrint (m + 2) (m + 1) from by
          show (("-" : String) ++ natToString (m + 1)).data = _
          rw [String.data_append]; rfl] at hc
      rcases List.mem_cons.mp hc with rfl | hc
      · exact Or.inl rfl
      · exact Or.inr (natPrint_chars (m + 2) (m + 1) c hc)
  have hno_dollar : '$' ∉ (intToString n).data := by
    intro hmem
    rcases hchars '$' hmem with h | h
    · exact absurd h (by decide)
    · exact absurd h (by decide)
  have hg1 : jsIncludes (intToString n) "$function" = false := by
    cases hg : jsIncludes (intToString n) "$function" with
    | false => rfl
    | true =>
      exact absurd (containsSub_subset _ _ hg '$' (by decide)) hno_dollar
  have hg2 : jsIncludes (intToString n) "$accumulator" = false := by
    cases hg : jsIncludes (intToString n) "$accumulator" with
    | false => rfl
    | true =>
      exact absurd (containsSub_subset _ _ hg '$' (by decide)) hno_dollar
  have hhead : ∃ c r, (intToString n).data = c :: r ∧ (c = '-' ∨ c ∈ digits10) := by
    cases hd : (intToString n).data with
    | nil =>
      exfalso
      cases n with
      | ofNat m => exact natPrint_ne_nil m m hd
      | negSucc m =>
        rw [show (intToString (.negSucc m)).data = '-' :: natPrint (m + 2) (m + 1) from by
            show (("-" : String) ++ natToString (m + 1)).data = _
            rw [String.data_append]; rfl] at hd
        exact absurd hd (by simp)
    | cons c r => exact ⟨c, r, rfl, hchars c (by rw [hd]; simp)⟩
  obtain ⟨c, r, hd, hcr⟩ := hhead
  have hlow : jsLowerChar c = c ∧ c ≠ 't' ∧ c ≠ 'f' := by
    rcases hcr with rfl | hcr
    · exact ⟨by decide, by decide, by decide⟩
    · have := digit_facts c hcr
      exact ⟨this.2.2.1, this.2.2.2.2.2.2.1, this.2.2.2.2.2.2.2⟩
  have hlt : jsToLower (intToString n) ≠ "true" :=
    jsToLower_ne_of_head _ c r "true" 't' ['r', 'u', 'e'] hd rfl
      (by rw [hlow.1]; exact hlow.2.1)
  have hlf : jsToLower (intToString n) ≠ "false" :=
    jsToLower_ne_of_head _ c r "false" 'f' ['a', 'l', 's', 'e'] hd rfl
      (by rw [hlow.1]; exact hlow.2.2)
  obtain ⟨f, hfuel⟩ := normalizeFuel_succ (JSValue.num n)
  unfold normalize
  simp only [normalizeF, textualForm_num, hg1, hg2, Bool.or_self, Bool.false_eq_true,
    if_false, hfuel]
  simp only [normalizeRest, hlt, hlf, if_false, jsToNumber_intToString n]

/-- A `Date` whose ISO text is free of the forbidden operators re-normalizes
to itself: its textual form is quoted, so every text-driven branch fails and
the raw value falls through. -/
theorem normalize_date (d : String) (hf : jsIncludes d "$function" = false)
    (ha : jsIncludes d "$accumulator" = false) :
    normalize (.date d) = .ok (.date d) := by
  have hdata := quoted_data d
  have hg1 : jsIncludes ("\"" ++ d ++ "\"") "$function" = false := by
    cases hg : jsIncludes ("\"" ++ d ++ "\"") "$function" with
    | false => rfl
    | true =>
      rw [jsIncludes, hdata] at hg
      rcases containsSub_middle _ _ '"' '"' hg (by decide) (by decide) with h | h
      · rw [jsIncludes] at hf; rw [h] at hf; exact absurd hf (by simp)
      · exact absurd h (by decide)
  have hg2 : jsIncludes ("\"" ++ d ++ "\"") "$accumulator" = false := by
    cases hg : jsIncludes ("\"" ++ d ++ "\"") "$accumulator" with
    | false => rfl
    | true =>
      rw [jsIncludes, hdata] at hg
      rcases containsSub_middle _ _ '"' '"' hg (by decide) (by decide) with h | h
      · rw [jsIncludes] at ha; rw [h] at ha; exact absurd ha (by simp)
      · exact absurd h (by decide)
  have hlt : jsToLower ("\"" ++ d ++ "\"") ≠ "true" :=
    jsToLower_ne_of_head _ '"' _ "true" 't' ['r', 'u', 'e'] hdata rfl (by decide)
  have hlf : jsToLower ("\"" ++ d ++ "\"") ≠ "false" :=
    jsToLower_ne_of_head _ '"' _ "false" 'f' ['a', 'l', 's', 'e'] hdata rfl (by decide)
  have hnum : jsToNumber ("\"" ++ d ++ "\"") = none :=
    jsToNumber_head_none _ '"' _ hdata (by decide) (by decide) (by decide) (by decide)
  have hiso : isISO8601 ("\"" ++ d ++ "\"") = false :=
    isISO8601_head_false _ '"' _ hdata (by decide)
  obtain ⟨f, hfuel⟩ := normalizeFuel_succ (JSValue.date d)
  unfold normalize
  simp only [normalizeF, textualForm_date, hg1, hg2, Bool.or_self, Bool.false_eq_true,
    if_false, hfuel]
  simp only [normalizeRest, hlt, hlf, if_false, hnum, hiso, Bool.false_eq_true]

/-- A successful `normalizeF` on a plain object yields a plain object: the
textual form starts with a brace, so every text-driven branch fails and the
object branch maps over the fields. -/
theorem normalizeF_obj_shape (fuel : Nat) (fs : JSObj) (v : JSValue)
    (h : normalizeF fuel (.obj fs) = .ok v) : ∃ gs, v = .obj gs := by
  obtain ⟨t, hdata⟩ := jsonStringify_obj_data fs
  have hdata2 : (textualForm (.obj fs)).data = '\x7b' :: t := by
    rw [textualForm_obj]; exact hdata
  cases fuel with
  | zero => exact absurd h (by simp [normalizeF])
  | succ fuel =>
    simp only [normalizeF] at h
    by_cases hg : (jsIncludes (textualForm (.obj fs)) "$function" ||
        jsIncludes (textualForm (.obj fs)) "$accumulator") = true
    · rw [if_pos hg] at h
      exact absurd h (by simp)
    · rw [if_neg hg] at h
      cases fuel with
      | zero => exact absurd h (by simp [normalizeRest])
      | succ f2 =>
        have hlt : jsToLower (textualForm (.obj fs)) ≠ "true" :=
          jsToLower_ne_of_head _ '\x7b' t "true" 't' ['r', 'u', 'e'] hdata2 rfl (by decide)
        have hlf : jsToLower (textualForm (.obj fs)) ≠ "false" :=
          jsToLower_ne_of_head _ '\x7b' t "false" 'f' ['a', 'l', 's', 'e'] hdata2 rfl
            (by decide)
        have hnum : jsToNumber (textualForm (.obj fs)) = none :=
          jsToNumber_head_none _ '\x7b' t hdata2 (by decide) (by decide) (by decide)
            (by decide)
        have hiso : isISO8601 (textualForm (.obj fs)) = false :=
          isISO8601_head_false _ '\x7b' t hdata2 (by decide)
        simp only [normalizeRest, hlt, hlf, if_false, hnum, hiso,
          Bool.false_eq_true] at h
        cases ho : normalizeObj f2 fs with
        | error e => rw [ho] at h; exact absurd h (by simp [Except.map])
        | ok gs =>
          rw [ho] at h
          simp only [Except.map] at h
          injection h with h
          exact ⟨gs, h.symm⟩

/-- A parsed brace-wrapped string is a plain object. -/
theorem jsonParse_brace_obj (s : String) (w : JSValue) (hs : jsStartsWith s "\x7b" = true)
    (h : jsonParse s = some w) : ∃ fs, w = .obj fs := by
  obtain ⟨r, hr⟩ : ∃ r, s.data = '\x7b' :: r := by
    cases hd : s.data with
    | nil => rw [jsStartsWith, hd] at hs; exact absurd hs (by decide)
    | cons c tl =>
      rw [jsStartsWith, hd] at hs
      simp only [show ("\x7b" : String).data = ['\x7b'] from rfl, leadMatch,
        Bool.and_eq_true] at hs
      have hc : '\x7b' = c := by simpa using hs.1
      exact ⟨tl, by rw [← hc]⟩
  unfold jsonParse at h
  cases hpv : parseValue (s.length + 1) s.data with
  | none => rw [hpv] at h; exact absurd h (by simp)
  | some p =>
    obtain ⟨v1, rest⟩ := p
    rw [hpv] at h
    have h2 : (if (skipWS rest).isEmpty then some v1 else none) = some w := h
    by_cases hrest : (skipWS rest).isEmpty
    · rw [if_pos hrest] at h2
      injection h2 with h
      subst h
      rw [hr] at hpv
      have hsw : skipWS ('\x7b' :: r) = '\x7b' :: r := by
        unfold skipWS
        rw [List.dropWhile_cons_of_neg (by decide)]
      simp only [parseValue, hsw] at hpv
      split at hpv
      · split at hpv
        · injection hpv with hpv
          exact ⟨.nil, ((Prod.mk.injEq .. ▸ hpv).1).symm⟩
        · cases hpf : parseFields s.length r with
          | none => rw [hpf] at hpv; exact absurd hpv (by simp)
          | some q =>
            rw [hpf] at hpv
            have hpv2 : some (JSValue.obj q.1, q.2) = (some (v1, rest) : Option (JSValue × List Char)) := hpv
            injection hpv2 with hpv
            exact ⟨q.1, ((Prod.mk.injEq .. ▸ hpv).1).symm⟩
      · next hfalse => exact absurd trivial hfalse
    · rw [if_neg hrest] at h2
      exact absurd h2 (by simp)

/-- Terminal results of normalizing a guard-clean string re-normalize to
themselves, whatever the fuel of the first run. -/
theorem normalizeF_str_terminal (fuel : Nat) (s : String) (v : JSValue)
    (hf : jsIncludes s "$function" = false) (ha : jsIncludes s "$accumulator" = false)
    (h : normalizeF fuel (.str s) = .ok v) (ht : isTerminal v = true) :
    normalize v = .ok v := by
  cases fuel with
  | zero => exact absurd h (by simp [normalizeF])
  | succ fuel =>
    simp only [normalizeF, textualForm_str, hf, ha, Bool.or_self, Bool.false_eq_true,
      if_false] at h
    by_cases hbr : (jsStartsWith s "\x7b" && jsEndsWith s "\x7d") = true
    · rw [if_pos hbr] at h
      cases hjp : jsonParse s with
      | none => rw [hjp] at h; exact absurd h (by simp)
      | some w =>
        rw [hjp] at h
        have hstart : jsStartsWith s "\x7b" = true := by
          have hx := hbr
          simp only [Bool.and_eq_true] at hx
          exact hx.1
        obtain ⟨fs, hw⟩ := jsonParse_brace_obj s w hstart hjp
        subst hw
        obtain ⟨gs, hv⟩ := normalizeF_obj_shape fuel fs v h
        rw [hv] at ht
        exact absurd ht (by simp [isTerminal])
    · rw [if_neg hbr] at h
      cases fuel with
      | zero => exact absurd h (by simp [normalizeRest])
      | succ f2 =>
        simp only [normalizeRest] at h
        by_cases h1 : jsToLower s = "true"
        · rw [if_pos h1] at h
          injection h with h
          rw [← h]
          exact normalize_bool true
        · rw [if_neg h1] at h
          by_cases hb2 : jsToLower s = "false"
          · rw [if_pos hb2] at h
            injection h with h
            rw [← h]
            exact normalize_bool false
          · rw [if_neg hb2] at h
            cases hnum : jsToNumber s with
            | some n =>
              rw [hnum] at h
              injection h with h
              rw [← h]
              exact normalize_num n
            | none =>
              rw [hnum] at h
              by_cases hiso : isISO8601 s = true
              · rw [if_pos hiso] at h
                injection h with h
                rw [← h]
                exact normalize_date s hf ha
              · rw [if_neg hiso] at h
                have h3 : (Except.ok (JSValue.str s) : Except NormError JSValue) = .ok v := h
                injection h3 with h3
                rw [← h3]
                obtain ⟨f3, hfuel⟩ := normalizeFuel_succ (JSValue.str s)
                unfold normalize
                rw [hfuel]
                simp only [normalizeF, textualForm_str, hf, ha, Bool.or_self,
                  Bool.false_eq_true, if_false]
                rw [if_neg hbr]
                simp only [normalizeRest]
                rw [if_neg h1, if_neg hb2, hnum, if_neg hiso]

/-- **C5.** `normalize` is idempotent on terminal results: for every string
`s` free of `$function`/`$accumulator`, if normalizing `s` succeeds and the
value has stabilized to a terminal type — boolean, number, date or string —
then normalizing that value again returns it unchanged. -/
theorem c5_normalize_idempotent (s : String) (v : JSValue)
    (hf : jsIncludes s "$function" = false) (ha : jsIncludes s "$accumulator" = false)
    (h : normalize (.str s) = .ok v) (ht : isTerminal v = true) :
    normalize v = .ok v :=
  normalizeF_str_terminal (normalizeFuel (.str s) + 1) s v hf ha h ht

/-- **C5 (witness).** Idempotence at the concrete input `true`. -/
theorem c5_normalize_idempotent_witness :
    jsIncludes "true" "$function" = false ∧ jsIncludes "true" "$accumulator" = false ∧
    normalize (.str "true") = .ok (.bool true) ∧ isTerminal (.bool true) = true ∧
    normalize (.bool true) = .ok (.bool true) :=
  ⟨by decide, by decide, by decide, by decide,
   c5_normalize_idempotent "true" (.bool true) (by decide) (by decide) (by decide)
     (by decide)⟩

end MongoController
